import Mathlib

/-!
# Verification of the bbolt event-store adapter

Shallow embedding of the event-sourcing storage adapter: a bbolt-backed
event store keeping one keyspace ("bucket") per aggregate plus a global
order bucket, with optimistic-concurrency validation of appended batches.

Buckets are modelled as association lists from `Nat` sequence keys to
values, kept in ascending key order (bbolt stores keys in bytewise order
and the 8-byte big-endian encoding `itob` is order-preserving on the
sequence numbers actually used, see `itob_strict_mono`).  The serializer is
modelled as the identity codec: the spec treats it as an external
collaborator satisfying `deserialize (serialize e) = e`, so bucket values
are the events themselves.  Engine-level failures (file I/O, transaction
begin, commit) belong to the external engine and are not modelled; the
remaining error path of `Save` is validation failure, which rolls the
transaction back, returning the pre-state.
-/

namespace EventStore

/-- A domain event, mirroring `eventsourcing.Event`: aggregate root id,
aggregate type, version, reason and an opaque payload. -/
structure Event where
  AggregateRootID : String
  AggregateType : String
  Version : Nat
  Reason : String
  Data : String
deriving DecidableEq, Repr

/-- Function `itob` returns the 8-byte big-endian representation of `v`
(`binary.BigEndian.PutUint64(b, uint64(v))`), as the list of its byte
values.  A Go `int` is converted to `uint64` by reduction mod `2^64`. -/
def itob (v : Int) : List Nat :=
  [(v % 18446744073709551616).toNat / 72057594037927936 % 256,
   (v % 18446744073709551616).toNat / 281474976710656 % 256,
   (v % 18446744073709551616).toNat / 1099511627776 % 256,
   (v % 18446744073709551616).toNat / 4294967296 % 256,
   (v % 18446744073709551616).toNat / 16777216 % 256,
   (v % 18446744073709551616).toNat / 65536 % 256,
   (v % 18446744073709551616).toNat / 256 % 256,
   (v % 18446744073709551616).toNat % 256]

/-- Big-endian base-256 decomposition of `x` into `k` bytes: the most
significant byte first.  For `x < 256 ^ k` this coincides with the last
`k` bytes `itob` produces; it is the form the order-preservation proof
recurses on. -/
def toBytesBE : Nat → Nat → List Nat
  | 0, _ => []
  | k + 1, x => (x / 256 ^ k) :: toBytesBE k (x % 256 ^ k)

/-- Bytewise lexicographic "less than", the order bbolt's B-tree uses on
keys (`bytes.Compare(a, b) < 0`). -/
def lexLt : List Nat → List Nat → Bool
  | [], [] => false
  | [], _ :: _ => true
  | _ :: _, [] => false
  | x :: xs, y :: ys => if x < y then true else if y < x then false else lexLt xs ys

/-- Function `aggregateKey` generates the aggregate bucket name from
`aggregateType` and `aggregateID`: `aggregateType + "_" + aggregateID`. -/
def aggregateKey (aggregateType aggregateID : String) : String :=
  aggregateType ++ "_" ++ aggregateID

/-- A bbolt bucket: its key/value entries (keys are the `Nat` sequence
numbers whose `itob` encodings bbolt stores in ascending bytewise order,
so `entries` is kept in ascending key order) together with the bucket's
monotonic sequence counter (`Bucket.NextSequence`). -/
structure Bucket where
  entries : List (Nat × Event)
  seq : Nat
deriving DecidableEq, Repr

/-- Insert a key/value pair keeping `entries` sorted by key, replacing an
existing entry with the same key — the semantics of `Bucket.Put` on the
B-tree. -/
def insertSorted : List (Nat × Event) → Nat → Event → List (Nat × Event)
  | [], k, v => [(k, v)]
  | (k', v') :: rest, k, v =>
    if k < k' then (k, v) :: (k', v') :: rest
    else if k = k' then (k, v) :: rest
    else (k', v') :: insertSorted rest k v

/-- Models `Bucket.Put(itob(b.NextSequence()), e)`: take the next sequence number
and store `e` under it. -/
def Bucket.nextPut (b : Bucket) (e : Event) : Bucket :=
  { entries := insertSorted b.entries (b.seq + 1) e, seq := b.seq + 1 }

/-- The whole store: the lazily-created aggregate buckets, keyed by bucket
name, and the `global_event_order` bucket created at `MustOpenBBolt`.  The
global bucket stores a copy of each serialized event (the copy-form
variant of the global log). -/
structure Store where
  buckets : List (String × Bucket)
  global : Bucket
deriving DecidableEq, Repr

/-- The store right after `MustOpenBBolt` on a fresh file: no aggregate
bucket, an empty global bucket. -/
def openStore : Store :=
  { buckets := [], global := { entries := [], seq := 0 } }

/-- Models `tx.Bucket(name)` for aggregate buckets: `none` models bbolt's `nil`
result when the bucket does not exist. -/
def Store.bucket (s : Store) (name : String) : Option Bucket :=
  s.buckets.lookup name

/-- Replace the named bucket's contents (or add the bucket) at commit. -/
def setBucket : List (String × Bucket) → String → Bucket → List (String × Bucket)
  | [], name, b => [(name, b)]
  | (n, b') :: rest, name, b =>
    if name == n then (name, b) :: rest else (n, b') :: setBucket rest name b

/-- The inner loop of `validateEvents`: `aggregateType` is fixed to the
first event's type before the loop starts. -/
def validateLoop (aggregateID aggregateType : String) :
    Nat → List Event → Option String
  | _, [] => none
  | currentVersion, event :: rest =>
    if event.AggregateRootID ≠ aggregateID then
      some "events holds events for more than one aggregate"
    else if event.AggregateType ≠ aggregateType then
      some "events holds events for more than one aggregate type"
    else if currentVersion + 1 ≠ event.Version then
      some "concurrency error"
    else if event.Reason = "" then
      some "event holds no reason"
    else validateLoop aggregateID aggregateType event.Version rest

/-- Validator `validateEvents(aggregateID, currentVersion, events)`: returns the
validation error, or `none` on success.  The `[]` case is unreachable from
`Save` (which returns before validating an empty batch); the Go code would
index `events[0]` out of range there. -/
def validateEvents (aggregateID : String) (currentVersion : Nat)
    (events : List Event) : Option String :=
  match events with
  | [] => none
  | e0 :: _ => validateLoop aggregateID e0.AggregateType currentVersion events

/-- The write loop of `Save`: for each event in order, put it in the
aggregate bucket under the bucket's next local sequence and put a copy in
the global bucket under the global bucket's next sequence. -/
def writeEvents : Bucket → Bucket → List Event → Bucket × Bucket
  | evB, gB, [] => (evB, gB)
  | evB, gB, e :: rest => writeEvents (evB.nextPut e) (gB.nextPut e) rest

/-- Writing a list of events into a single bucket, one `nextPut` each:
the two components of `writeEvents` are independent. -/
def writeList : Bucket → List Event → Bucket
  | b, [] => b
  | b, e :: rest => writeList (b.nextPut e) rest

/-- Models `cursor.Last()` on the aggregate bucket, decoded: the version stored
under the highest key, or `0` for an absent or empty bucket — the
`currentVersion` baseline `Save` validates against. -/
def storedVersion (s : Store) (name : String) : Nat :=
  match ((s.bucket name).getD { entries := [], seq := 0 }).entries.getLast? with
  | none => 0
  | some kv => kv.2.Version

/-- Operation `Save(events)`.  Returns the post-state as the caller observes it and
the returned error: on any error path the deferred `tx.Rollback()` leaves
the store unchanged, so the pre-state is returned; on success the
transaction commits the new buckets.  Bucket creation, `NextSequence`,
`Put`, serialization and `Commit` failures belong to the external engine
and codec and have no failing case in the model. -/
def Save (s : Store) (events : List Event) : Store × Option String :=
  match events with
  | [] => (s, none)
  | e0 :: _ =>
    let bucketName := aggregateKey e0.AggregateType e0.AggregateRootID
    let evBucket := (s.bucket bucketName).getD { entries := [], seq := 0 }
    match validateEvents e0.AggregateRootID (storedVersion s bucketName) events with
    | some msg => (s, some msg)
    | none =>
      let (evB, gB) := writeEvents evBucket s.global events
      ({ buckets := setBucket s.buckets bucketName evB, global := gB }, none)

/-- Operation `Get(id, aggregateType, afterVersion)`.  `none` models the Go runtime
panic: when the aggregate bucket does not exist, `tx.Bucket` returns `nil`
and `evBucket.Cursor()` dereferences the nil pointer.  Otherwise the
cursor seeks to the smallest key `≥ afterVersion + 1` and scans forward;
on the ascending `entries` list that is the sublist of entries with key
`≥ afterVersion + 1`, in order. -/
def Get (s : Store) (id aggregateType : String) (afterVersion : Nat) :
    Option (List Event) :=
  match s.bucket (aggregateKey aggregateType id) with
  | none => none
  | some b =>
    some ((b.entries.filter fun kv => afterVersion + 1 ≤ kv.1).map fun kv => kv.2)

/-- The scan loop of `GlobalGet`, on the entries at and after the seek
position: each iteration appends the decoded event and increments
`counter`, then breaks when `counter >= count`; `c` is `count` minus the
events taken so far. -/
def scanCount : List (Nat × Event) → Int → List Event
  | [], _ => []
  | kv :: rest, c => kv.2 :: (if c ≤ 1 then [] else scanCount rest (c - 1))

/-- Operation `GlobalGet(start, count)`: seek the global bucket's cursor to the
smallest key whose 8-byte big-endian encoding is bytewise `≥ itob start`
— numerically, `≥ uint64(start)` — and scan forward under the counter. -/
def GlobalGet (s : Store) (start count : Int) : List Event :=
  scanCount
    (s.global.entries.filter fun kv => (start % 18446744073709551616).toNat ≤ kv.1)
    count

/-- Method `Snapshot.Get(id, a)` from `snapshot.go`, with the underlying
`snapshotStore.Get` passed as a function returning (loaded value, error).
The body `a, err := s.store.Get(id); return err` declares a fresh local
`a` that shadows the parameter; the result models what the caller sees:
the first component is the caller's argument after the call (`a` is
passed by value and never written through) and the second is the returned
error. -/
def snapshotGet {α : Type} (storeGet : String → α × Option String)
    (id : String) (a : α) : α × Option String :=
  let loaded := storeGet id
  (a, loaded.2)

/-- Every key in the bucket is at most the sequence counter — true of all
reachable buckets, since keys are only ever taken from `NextSequence`. -/
def BucketWf (b : Bucket) : Prop := ∀ kv ∈ b.entries, kv.1 ≤ b.seq

/-- The entries written by a batch: consecutive keys starting at `q`,
paired with the events in order. -/
def zipSeq : Nat → List Event → List (Nat × Event)
  | _, [] => []
  | q, e :: rest => (q, e) :: zipSeq (q + 1) rest

/-- Concrete events used to evaluate the definitions at specific inputs. -/
def demoEvent1 : Event :=
  { AggregateRootID := "u1", AggregateType := "user", Version := 1,
    Reason := "Created", Data := "p1" }

def demoEvent2 : Event :=
  { AggregateRootID := "u1", AggregateType := "user", Version := 2,
    Reason := "Renamed", Data := "p2" }

/-- An event whose version skips ahead of a fresh stream. -/
def demoBadVersion : Event :=
  { AggregateRootID := "u1", AggregateType := "user", Version := 5,
    Reason := "Created", Data := "p" }

/-- The store after appending `[demoEvent1, demoEvent2]` to a fresh store. -/
def demoStore : Store := (Save openStore [demoEvent1, demoEvent2]).1

end EventStore

namespace EventStore

/- Claim C6 support: list-level injectivity of `l ++ sep :: r` when the
left component avoids the separator. -/

theorem append_sep_inj {l₁ l₂ r₁ r₂ : List Char}
    (h₁ : '_' ∉ l₁) (h₂ : '_' ∉ l₂)
    (h : l₁ ++ '_' :: r₁ = l₂ ++ '_' :: r₂) : l₁ = l₂ ∧ r₁ = r₂ := by
  induction l₁ generalizing l₂ with
  | nil =>
    cases l₂ with
    | nil => simpa using h
    | cons c l₂ =>
      simp only [List.nil_append, List.cons_append, List.cons.injEq] at h
      obtain ⟨hc, -⟩ := h
      subst hc
      exact absurd (List.mem_cons_self _ _) h₂
  | cons c l₁ ih =>
    cases l₂ with
    | nil =>
      simp only [List.nil_append, List.cons_append, List.cons.injEq] at h
      obtain ⟨hc, -⟩ := h
      rw [← hc] at h₁
      exact absurd (List.mem_cons_self _ _) h₁
    | cons d l₂ =>
      simp only [List.cons_append, List.cons.injEq] at h
      obtain ⟨rfl, h⟩ := h
      obtain ⟨rfl, rfl⟩ := ih (fun hm => h₁ (List.mem_cons_of_mem _ hm))
        (fun hm => h₂ (List.mem_cons_of_mem _ hm)) h
      exact ⟨rfl, rfl⟩

theorem zipSeq_map_snd (q : Nat) (events : List Event) :
    (zipSeq q events).map (fun kv => kv.2) = events := by
  induction events generalizing q with
  | nil => rfl
  | cons e rest ih => simp [zipSeq, ih]

theorem zipSeq_length (q : Nat) (events : List Event) :
    (zipSeq q events).length = events.length := by
  induction events generalizing q with
  | nil => rfl
  | cons e rest ih => simp [zipSeq, ih]

theorem zipSeq_filter_ge (lo q : Nat) (events : List Event) (h : lo ≤ q) :
    (zipSeq q events).filter (fun kv => lo ≤ kv.1) = zipSeq q events := by
  induction events generalizing q with
  | nil => rfl
  | cons e rest ih =>
    simp only [zipSeq, List.filter_cons]
    rw [if_pos (by simpa using h), ih (q + 1) (by omega)]

theorem insertSorted_of_forall_lt (l : List (Nat × Event)) (k : Nat) (v : Event)
    (h : ∀ kv ∈ l, kv.1 < k) : insertSorted l k v = l ++ [(k, v)] := by
  induction l with
  | nil => rfl
  | cons kv rest ih =>
    have hk : kv.1 < k := h kv (List.mem_cons_self _ _)
    simp only [insertSorted]
    rw [if_neg (by omega), if_neg (by omega), ih (fun p hp => h p (List.mem_cons_of_mem _ hp))]
    rfl

theorem nextPut_entries (b : Bucket) (e : Event) (hwf : BucketWf b) :
    (b.nextPut e).entries = b.entries ++ [(b.seq + 1, e)] := by
  simp only [Bucket.nextPut]
  exact insertSorted_of_forall_lt _ _ _ (fun kv hkv => by have := hwf kv hkv; omega)

theorem nextPut_wf (b : Bucket) (e : Event) (hwf : BucketWf b) :
    BucketWf (b.nextPut e) := by
  intro kv hkv
  rw [nextPut_entries b e hwf] at hkv
  rcases List.mem_append.mp hkv with hl | hr
  · have := hwf kv hl
    simp only [Bucket.nextPut]
    omega
  · simp only [List.mem_singleton] at hr
    simp [hr, Bucket.nextPut]

theorem writeList_spec (events : List Event) (b : Bucket) (hwf : BucketWf b) :
    (writeList b events).entries = b.entries ++ zipSeq (b.seq + 1) events ∧
    (writeList b events).seq = b.seq + events.length := by
  induction events generalizing b with
  | nil => simp [writeList, zipSeq]
  | cons e rest ih =>
    obtain ⟨ihe, ihs⟩ := ih (b.nextPut e) (nextPut_wf b e hwf)
    refine ⟨?_, ?_⟩
    · rw [writeList, ihe, nextPut_entries b e hwf]
      simp [Bucket.nextPut, zipSeq]
    · rw [writeList, ihs]
      simp only [Bucket.nextPut, List.length_cons]
      omega

theorem writeEvents_eq (events : List Event) (evB gB : Bucket) :
    writeEvents evB gB events = (writeList evB events, writeList gB events) := by
  induction events generalizing evB gB with
  | nil => rfl
  | cons e rest ih => simp [writeEvents, writeList, ih]

theorem lookup_setBucket_self (l : List (String × Bucket)) (name : String) (b : Bucket) :
    (setBucket l name b).lookup name = some b := by
  induction l with
  | nil => simp [setBucket, List.lookup]
  | cons nb rest ih =>
    obtain ⟨n, bb⟩ := nb
    simp only [setBucket]
    by_cases h : name == n
    · rw [if_pos h]
      simp [List.lookup]
    · rw [if_neg h]
      have hf : (name == n) = false := by simpa using h
      simp [List.lookup, hf, ih]

/-- Characterization of the validation loop: it reports an error exactly
when some event, at its position in the scan order, breaks one of the
four checks; a passing prefix forces `currentVersion` to have advanced to
`cv + i` at position `i`, so the version check there compares against
`cv + i + 1`. -/
theorem validateLoop_isSome_iff (aggregateID aggregateType : String) (cv : Nat)
    (events : List Event) :
    (validateLoop aggregateID aggregateType cv events).isSome = true ↔
    ∃ i, ∃ h : i < events.length,
      (events.get ⟨i, h⟩).AggregateRootID ≠ aggregateID ∨
      (events.get ⟨i, h⟩).AggregateType ≠ aggregateType ∨
      (events.get ⟨i, h⟩).Version ≠ cv + i + 1 ∨
      (events.get ⟨i, h⟩).Reason = "" := by
  induction events generalizing cv with
  | nil => simp [validateLoop]
  | cons e rest ih =>
    constructor
    · intro hs
      simp only [validateLoop] at hs
      split_ifs at hs with h1 h2 h3 h4
      · exact ⟨0, by simp, Or.inl h1⟩
      · exact ⟨0, by simp, Or.inr (Or.inl h2)⟩
      · exact ⟨0, by simp, Or.inr (Or.inr (Or.inl (Ne.symm h3)))⟩
      · exact ⟨0, by simp, Or.inr (Or.inr (Or.inr h4))⟩
      · rw [not_ne_iff] at h3
        obtain ⟨i, hlt, hbad⟩ := (ih e.Version).mp hs
        refine ⟨i + 1, by simpa using hlt, ?_⟩
        rcases hbad with hb | hb | hb | hb
        · exact Or.inl hb
        · exact Or.inr (Or.inl hb)
        · refine Or.inr (Or.inr (Or.inl ?_))
          intro hv
          have hv2 : (rest.get ⟨i, hlt⟩).Version = cv + (i + 1) + 1 := hv
          exact hb (by omega)
        · exact Or.inr (Or.inr (Or.inr hb))
    · rintro ⟨i, hlt, hbad⟩
      simp only [validateLoop]
      split_ifs with h1 h2 h3 h4
      · rfl
      · rfl
      · rfl
      · rfl
      · cases i with
        | zero =>
          exfalso
          rw [not_ne_iff] at h1 h2 h3
          rcases hbad with hb | hb | hb | hb
          · exact hb h1
          · exact hb h2
          · exact hb h3.symm
          · exact h4 hb
        | succ j =>
          rw [not_ne_iff] at h3
          apply (ih e.Version).mpr
          have hj : j < rest.length := by simpa using hlt
          refine ⟨j, hj, ?_⟩
          rcases hbad with hb | hb | hb | hb
          · exact Or.inl hb
          · exact Or.inr (Or.inl hb)
          · refine Or.inr (Or.inr (Or.inl ?_))
            intro hv
            have hv2 : (rest.get ⟨j, hj⟩).Version = cv + (j + 1) + 1 := by omega
            exact hb hv2
          · exact Or.inr (Or.inr (Or.inr hb))

/-- The validation loop succeeds when every event carries the right
aggregate id and type, a non-empty reason, and version `cv + i + 1` at
position `i`. -/
theorem validateLoop_eq_none (aggregateID aggregateType : String) (cv : Nat)
    (events : List Event)
    (hid : ∀ e ∈ events, e.AggregateRootID = aggregateID)
    (hty : ∀ e ∈ events, e.AggregateType = aggregateType)
    (hver : ∀ i, ∀ h : i < events.length, (events.get ⟨i, h⟩).Version = cv + i + 1)
    (hreason : ∀ e ∈ events, e.Reason ≠ "") :
    validateLoop aggregateID aggregateType cv events = none := by
  rw [← Option.not_isSome_iff_eq_none]
  intro hs
  obtain ⟨i, hlt, hbad⟩ := (validateLoop_isSome_iff aggregateID aggregateType cv events).mp
    (by simpa using hs)
  have hmem : events.get ⟨i, hlt⟩ ∈ events := List.get_mem events i hlt
  rcases hbad with hb | hb | hb | hb
  · exact hb (hid _ hmem)
  · exact hb (hty _ hmem)
  · exact hb (hver i hlt)
  · exact hreason _ hmem hb

/-- Big-endian decomposition is strictly monotone under bytewise
lexicographic comparison: the most significant differing byte decides. -/
theorem lexLt_toBytesBE (k m n : Nat) (hmn : m < n) (hn : n < 256 ^ k) :
    lexLt (toBytesBE k m) (toBytesBE k n) = true := by
  induction k generalizing m n with
  | zero => simp at hn; omega
  | succ k ih =>
    simp only [toBytesBE, lexLt]
    have hdm := Nat.div_add_mod m (256 ^ k)
    have hpos : 0 < 256 ^ k := Nat.pos_pow_of_pos k (by norm_num)
    have hnm : n % 256 ^ k < 256 ^ k := Nat.mod_lt _ hpos
    by_cases h1 : m / 256 ^ k < n / 256 ^ k
    · rw [if_pos h1]
    · rw [if_neg h1]
      have hle : m / 256 ^ k ≤ n / 256 ^ k := Nat.div_le_div_right (Nat.le_of_lt hmn)
      have hdiv : m / 256 ^ k = n / 256 ^ k := by omega
      rw [if_neg (by omega)]
      rw [hdiv] at hdm
      have hdn := Nat.div_add_mod n (256 ^ k)
      exact ih (m % 256 ^ k) (n % 256 ^ k) (by omega) hnm

/-- The 8-byte decomposition agrees with the byte list `itob` computes
(`b[i] = byte(v >> (56 - 8*i))`) on values below `2^64`. -/
theorem toBytesBE_eight (x : Nat) (hx : x < 18446744073709551616) :
    toBytesBE 8 x =
      [x / 72057594037927936 % 256, x / 281474976710656 % 256,
       x / 1099511627776 % 256, x / 4294967296 % 256, x / 16777216 % 256,
       x / 65536 % 256, x / 256 % 256, x % 256] := by
  simp only [toBytesBE, List.cons.injEq]
  norm_num
  omega

/-- C9: `itob` is strictly order-preserving on `0 ≤ a < b < 2^63`: the
8-byte big-endian encodings compare bytewise in the same order, so cursor
iteration over such keys visits entries in ascending numeric order. -/
theorem itob_strict_mono (a b : Int) (h0 : 0 ≤ a) (hab : a < b)
    (hb : b < 9223372036854775808) : lexLt (itob a) (itob b) = true := by
  have hA : a % 18446744073709551616 = a := Int.emod_eq_of_lt h0 (by omega)
  have hB : b % 18446744073709551616 = b := Int.emod_eq_of_lt (by omega) (by omega)
  simp only [itob, hA, hB]
  rw [← toBytesBE_eight a.toNat (by omega), ← toBytesBE_eight b.toNat (by omega)]
  exact lexLt_toBytesBE 8 a.toNat b.toNat (by omega) (by norm_num; omega)

/-- Witness for `itob_strict_mono` at `a = 3`, `b = 7`. -/
theorem itob_strict_mono_witness :
    (0 : Int) ≤ 3 ∧ (3 : Int) < 7 ∧ (7 : Int) < 9223372036854775808 ∧
    lexLt (itob 3) (itob 7) = true :=
  ⟨by norm_num, by norm_num, by norm_num,
    itob_strict_mono 3 7 (by norm_num) (by norm_num) (by norm_num)⟩

/-- C2: for a non-empty batch, `validateEvents` reports an error exactly
when some event, scanned in order with `currentVersion` advanced to each
accepted event's version, has the wrong aggregate root id, an aggregate
type differing from the first event's, a version other than the advanced
`currentVersion + 1` (which at position `i` is `currentVersion + i + 1`),
or an empty reason; otherwise it succeeds. -/
theorem validateEvents_error_iff (aggregateID : String) (currentVersion : Nat)
    (e0 : Event) (rest : List Event) :
    (validateEvents aggregateID currentVersion (e0 :: rest)).isSome = true ↔
    ∃ i, ∃ h : i < (e0 :: rest).length,
      ((e0 :: rest).get ⟨i, h⟩).AggregateRootID ≠ aggregateID ∨
      ((e0 :: rest).get ⟨i, h⟩).AggregateType ≠ e0.AggregateType ∨
      ((e0 :: rest).get ⟨i, h⟩).Version ≠ currentVersion + i + 1 ∨
      ((e0 :: rest).get ⟨i, h⟩).Reason = "" :=
  validateLoop_isSome_iff aggregateID e0.AggregateType currentVersion (e0 :: rest)

/-- On validation failure, `Save` rolls back: the pre-state and the
validator's error are returned. -/
theorem save_error_eq (s : Store) (e0 : Event) (rest : List Event) (msg : String)
    (hval : validateEvents e0.AggregateRootID
      (storedVersion s (aggregateKey e0.AggregateType e0.AggregateRootID))
      (e0 :: rest) = some msg) :
    Save s (e0 :: rest) = (s, some msg) := by
  simp [Save, hval]

/-- C3: when validation of a non-empty batch fails against the stored
current version, `Save` returns the validator's error and the store the
caller observes is exactly the pre-state: no event of the batch is
visible anywhere and no sequence counter has advanced. -/
theorem save_validation_error_rolls_back (s : Store) (e0 : Event)
    (rest : List Event) (msg : String)
    (hval : validateEvents e0.AggregateRootID
      (storedVersion s (aggregateKey e0.AggregateType e0.AggregateRootID))
      (e0 :: rest) = some msg) :
    Save s (e0 :: rest) = (s, some msg) :=
  save_error_eq s e0 rest msg hval

/-- Witness for `save_validation_error_rolls_back`: a fresh store rejects
a first event with version 5. -/
theorem save_validation_error_rolls_back_witness :
    validateEvents demoBadVersion.AggregateRootID
      (storedVersion openStore
        (aggregateKey demoBadVersion.AggregateType demoBadVersion.AggregateRootID))
      [demoBadVersion] = some "concurrency error" ∧
    Save openStore [demoBadVersion] = (openStore, some "concurrency error") :=
  ⟨by decide,
    save_validation_error_rolls_back openStore demoBadVersion [] "concurrency error"
      (by decide)⟩

/-- C5 (code bug): when the aggregate bucket has never been created,
`tx.Bucket` returns `nil` and `Get` dereferences it via `Cursor()` — the
`none` result models that runtime panic, not the empty sequence the spec
describes. -/
theorem get_missing_bucket_panics (s : Store) (id aggregateType : String)
    (afterVersion : Nat)
    (habsent : s.bucket (aggregateKey aggregateType id) = none) :
    Get s id aggregateType afterVersion = none := by
  simp [Get, habsent]

/-- Witness for `get_missing_bucket_panics` on a fresh store. -/
theorem get_missing_bucket_panics_witness :
    openStore.bucket (aggregateKey "user" "u1") = none ∧
    Get openStore "u1" "user" 0 = none :=
  ⟨rfl, get_missing_bucket_panics openStore "u1" "user" 0 rfl⟩

/-- C6 counterexample: the bucket naming `type ++ "_" ++ id` is not
injective — `("a_b", "c")` and `("a", "b_c")` are distinct pairs mapped
to the same bucket name `"a_b_c"`. -/
theorem aggregateKey_not_injective :
    aggregateKey "a_b" "c" = aggregateKey "a" "b_c" ∧
    ¬(("a_b" : String) = "a" ∧ ("c" : String) = "b_c") := by
  exact ⟨rfl, by decide⟩

/-- C6 amended: the naming is injective on pairs whose aggregate type
contains no underscore (the separator never occurs unescaped in the left
component). -/
theorem aggregateKey_inj_no_underscore (t₁ i₁ t₂ i₂ : String)
    (h₁ : '_' ∉ t₁.data) (h₂ : '_' ∉ t₂.data)
    (h : aggregateKey t₁ i₁ = aggregateKey t₂ i₂) : t₁ = t₂ ∧ i₁ = i₂ := by
  have hd : t₁.data ++ '_' :: i₁.data = t₂.data ++ '_' :: i₂.data := by
    have hc := congrArg String.data h
    simpa [aggregateKey, String.data_append] using hc
  obtain ⟨ht, hi⟩ := append_sep_inj h₁ h₂ hd
  exact ⟨String.ext ht, String.ext hi⟩

/-- Witness for `aggregateKey_inj_no_underscore` at underscore-free
types. -/
theorem aggregateKey_inj_no_underscore_witness :
    '_' ∉ ("user" : String).data ∧ '_' ∉ ("user" : String).data ∧
    (("user" : String) = "user" ∧ ("u1" : String) = "u1") :=
  ⟨by decide, by decide,
    aggregateKey_inj_no_underscore "user" "u1" "user" "u1" (by decide) (by decide) rfl⟩

/-- C7: saving an empty batch succeeds and the store is untouched: no
bucket is created, no entry written, no sequence counter advanced. -/
theorem save_empty_batch (s : Store) : Save s [] = (s, none) := rfl

/-- On success, `Save` commits the aggregate bucket and the global bucket
produced by the write loop. -/
theorem save_success_eq (s : Store) (e0 : Event) (rest : List Event)
    (hval : validateEvents e0.AggregateRootID
      (storedVersion s (aggregateKey e0.AggregateType e0.AggregateRootID))
      (e0 :: rest) = none) :
    Save s (e0 :: rest) =
      ({ buckets := setBucket s.buckets (aggregateKey e0.AggregateType e0.AggregateRootID)
            (writeList ((s.bucket (aggregateKey e0.AggregateType e0.AggregateRootID)).getD
              { entries := [], seq := 0 }) (e0 :: rest)),
         global := writeList s.global (e0 :: rest) }, none) := by
  simp only [Save, hval, writeEvents_eq]

/-- C1: appending a valid batch (homogeneous ids and types, versions
`1..n`, non-empty reasons) to a fresh aggregate succeeds, and
`Get(id, type, 0)` afterwards returns exactly the batch, in order. -/
theorem save_get_roundtrip (s : Store) (events : List Event) (id aggregateType : String)
    (hne : events ≠ [])
    (hfresh : s.bucket (aggregateKey aggregateType id) = none)
    (hid : ∀ e ∈ events, e.AggregateRootID = id)
    (hty : ∀ e ∈ events, e.AggregateType = aggregateType)
    (hver : ∀ i, ∀ h : i < events.length, (events.get ⟨i, h⟩).Version = i + 1)
    (hreason : ∀ e ∈ events, e.Reason ≠ "") :
    (Save s events).2 = none ∧
    Get (Save s events).1 id aggregateType 0 = some events := by
  cases events with
  | nil => exact absurd rfl hne
  | cons e0 rest =>
    have hbeq : aggregateKey e0.AggregateType e0.AggregateRootID =
        aggregateKey aggregateType id := by
      rw [hid e0 (List.mem_cons_self _ _), hty e0 (List.mem_cons_self _ _)]
    have hlookup : s.bucket (aggregateKey e0.AggregateType e0.AggregateRootID) = none := by
      rw [hbeq]; exact hfresh
    have hsv : storedVersion s (aggregateKey e0.AggregateType e0.AggregateRootID) = 0 := by
      simp [storedVersion, hlookup]
    have hval : validateEvents e0.AggregateRootID
        (storedVersion s (aggregateKey e0.AggregateType e0.AggregateRootID))
        (e0 :: rest) = none := by
      rw [hsv]
      apply validateLoop_eq_none
      · intro e he
        rw [hid e he, hid e0 (List.mem_cons_self _ _)]
      · intro e he
        rw [hty e he, hty e0 (List.mem_cons_self _ _)]
      · intro i h
        rw [hver i h]
        omega
      · exact hreason
    have hsave := save_success_eq s e0 rest hval
    rw [hlookup] at hsave
    have hwfempty : BucketWf { entries := [], seq := 0 } := by
      intro kv hkv
      simp at hkv
    obtain ⟨hent, hseq⟩ := writeList_spec (e0 :: rest) { entries := [], seq := 0 } hwfempty
    have hq : ({ entries := [], seq := 0 } : Bucket).seq + 1 = 1 := rfl
    rw [hq] at hent
    have hnil : ({ entries := [], seq := 0 } : Bucket).entries = [] := rfl
    rw [hnil, List.nil_append] at hent
    constructor
    · rw [hsave]
    · rw [hsave]
      simp only [Get, Store.bucket, ← hbeq, lookup_setBucket_self, Option.getD_none]
      rw [hent]
      rw [zipSeq_filter_ge (0 + 1) 1 (e0 :: rest) (by omega), zipSeq_map_snd]

/-- Witness for `save_get_roundtrip`: the two demo events on a fresh
store. -/
theorem save_get_roundtrip_witness :
    ([demoEvent1, demoEvent2] ≠ ([] : List Event)) ∧
    openStore.bucket (aggregateKey "user" "u1") = none ∧
    (Save openStore [demoEvent1, demoEvent2]).2 = none ∧
    Get (Save openStore [demoEvent1, demoEvent2]).1 "u1" "user" 0 =
      some [demoEvent1, demoEvent2] := by
  have h := save_get_roundtrip openStore [demoEvent1, demoEvent2] "u1" "user"
    (by simp)
    rfl
    (by intro e he; fin_cases he <;> rfl)
    (by intro e he; fin_cases he <;> rfl)
    (by
      intro i h
      match i with
      | 0 => rfl
      | 1 => rfl
      | n + 2 => simp at h)
    (by intro e he; fin_cases he <;> decide)
  exact ⟨by simp, rfl, h.1, h.2⟩

/-- C8: a successful `Save` of a non-empty batch advances the global
sequence counter by exactly the batch length, writes the batch to the
global log under the contiguous ascending keys
`global.seq + 1 .. global.seq + n` appended after all existing entries
(no other entry interleaved), and advances the aggregate bucket's counter
by exactly the batch length. -/
theorem save_advances_sequences (s : Store) (e0 : Event) (rest : List Event) (s2 : Store)
    (hwfg : BucketWf s.global)
    (hwfa : BucketWf ((s.bucket (aggregateKey e0.AggregateType e0.AggregateRootID)).getD
      { entries := [], seq := 0 }))
    (hok : Save s (e0 :: rest) = (s2, none)) :
    s2.global.seq = s.global.seq + (e0 :: rest).length ∧
    s2.global.entries = s.global.entries ++ zipSeq (s.global.seq + 1) (e0 :: rest) ∧
    ((s2.bucket (aggregateKey e0.AggregateType e0.AggregateRootID)).getD
        { entries := [], seq := 0 }).seq =
      ((s.bucket (aggregateKey e0.AggregateType e0.AggregateRootID)).getD
        { entries := [], seq := 0 }).seq + (e0 :: rest).length := by
  cases hval : validateEvents e0.AggregateRootID
      (storedVersion s (aggregateKey e0.AggregateType e0.AggregateRootID))
      (e0 :: rest) with
  | some msg =>
    rw [save_error_eq s e0 rest msg hval] at hok
    simp at hok
  | none =>
    rw [save_success_eq s e0 rest hval] at hok
    simp only [Prod.mk.injEq] at hok
    obtain ⟨hs2, -⟩ := hok
    subst hs2
    obtain ⟨hgent, hgseq⟩ := writeList_spec (e0 :: rest) s.global hwfg
    obtain ⟨haent, haseq⟩ := writeList_spec (e0 :: rest)
      ((s.bucket (aggregateKey e0.AggregateType e0.AggregateRootID)).getD
        { entries := [], seq := 0 }) hwfa
    refine ⟨hgseq, hgent, ?_⟩
    simp only [Store.bucket, lookup_setBucket_self, Option.getD_some]
    exact haseq

/-- Witness for `save_advances_sequences`: the demo batch on a fresh
store. -/
theorem save_advances_sequences_witness :
    BucketWf openStore.global ∧
    BucketWf ((openStore.bucket (aggregateKey demoEvent1.AggregateType
      demoEvent1.AggregateRootID)).getD { entries := [], seq := 0 }) ∧
    Save openStore [demoEvent1, demoEvent2] = (demoStore, none) ∧
    (demoStore.global.seq = openStore.global.seq + 2 ∧
     demoStore.global.entries = openStore.global.entries ++
       zipSeq (openStore.global.seq + 1) [demoEvent1, demoEvent2] ∧
     ((demoStore.bucket (aggregateKey demoEvent1.AggregateType
         demoEvent1.AggregateRootID)).getD { entries := [], seq := 0 }).seq =
       ((openStore.bucket (aggregateKey demoEvent1.AggregateType
         demoEvent1.AggregateRootID)).getD { entries := [], seq := 0 }).seq + 2) := by
  have hw1 : BucketWf openStore.global := by
    intro kv hkv
    simp [openStore] at hkv
  have hw2 : BucketWf ((openStore.bucket (aggregateKey demoEvent1.AggregateType
      demoEvent1.AggregateRootID)).getD { entries := [], seq := 0 }) := by
    intro kv hkv
    simp [openStore, Store.bucket, List.lookup] at hkv
  have hok : Save openStore [demoEvent1, demoEvent2] = (demoStore, none) := by decide
  exact ⟨hw1, hw2, hok,
    save_advances_sequences openStore demoEvent1 [demoEvent2] demoStore hw1 hw2 hok⟩

/-- The scan loop returns at most `max count 1` events: the counter is
checked only after an event has been appended, so even `count ≤ 0`
returns up to one event. -/
theorem scanCount_length_le (l : List (Nat × Event)) (c : Int) :
    ((scanCount l c).length : Int) ≤ max c 1 := by
  induction l generalizing c with
  | nil =>
    simp only [scanCount, List.length_nil, Int.ofNat_zero]
    exact le_trans (by norm_num) (le_max_right c 1)
  | cons kv rest ih =>
    simp only [scanCount]
    by_cases hc : c ≤ 1
    · rw [if_pos hc]
      simp only [List.length_cons, List.length_nil]
      exact le_trans (by norm_num) (le_max_right c 1)
    · rw [if_neg hc]
      have h := ih (c - 1)
      simp only [List.length_cons]
      have hm1 : max (c - 1) 1 = c - 1 := max_eq_left (by omega)
      have hm2 : max c 1 = c := max_eq_left (by omega)
      rw [hm1] at h
      rw [hm2]
      push_cast
      omega

/-- Every event the scan loop returns comes from the scanned entries. -/
theorem scanCount_mem (l : List (Nat × Event)) (c : Int) (e : Event)
    (he : e ∈ scanCount l c) : ∃ k, (k, e) ∈ l := by
  induction l generalizing c with
  | nil => simp [scanCount] at he
  | cons kv rest ih =>
    simp only [scanCount] at he
    rcases List.mem_cons.mp he with h | h
    · exact ⟨kv.1, by rw [h]; exact List.mem_cons_self _ _⟩
    · by_cases hc : c ≤ 1
      · rw [if_pos hc] at h
        simp at h
      · rw [if_neg hc] at h
        obtain ⟨k, hk⟩ := ih (c - 1) h
        exact ⟨k, List.mem_cons_of_mem _ hk⟩

/-- C4 amended: for any `start` in the Go `int` range, `GlobalGet` returns
at most `max count 1` events — at most `count` when `count ≥ 1`, but up to
one event when `count ≤ 0`, since the counter is only checked after an
append — and every returned event was stored in the global log under a
sequence number `≥ start`. -/
theorem globalGet_bounds (s : Store) (start count : Int)
    (hstart : start < 9223372036854775808) :
    ((GlobalGet s start count).length : Int) ≤ max count 1 ∧
    ∀ e ∈ GlobalGet s start count,
      ∃ k, (k, e) ∈ s.global.entries ∧ start ≤ (k : Int) := by
  constructor
  · exact scanCount_length_le _ count
  · intro e he
    obtain ⟨k, hk⟩ := scanCount_mem _ count e he
    have hmem := List.mem_filter.mp hk
    refine ⟨k, hmem.1, ?_⟩
    have hle : (start % 18446744073709551616).toNat ≤ k := by simpa using hmem.2
    omega

/-- Witness for `globalGet_bounds` on the demo store. -/
theorem globalGet_bounds_witness :
    (1 : Int) < 9223372036854775808 ∧
    (((GlobalGet demoStore 1 2).length : Int) ≤ max 2 1 ∧
     ∀ e ∈ GlobalGet demoStore 1 2,
       ∃ k, (k, e) ∈ demoStore.global.entries ∧ (1 : Int) ≤ (k : Int)) :=
  ⟨by norm_num, globalGet_bounds demoStore 1 2 (by norm_num)⟩

/-- C4 counterexample: with `count = 0` the loop still returns one event
(the counter `counter >= count` check runs only after the first append),
so "at most `count` events" fails for `count = 0`. -/
theorem globalGet_count_zero_excess :
    ¬ (((GlobalGet demoStore 1 0).length : Int) ≤ 0) := by decide

/-- C10: `Snapshot.Get` never delivers the loaded snapshot: the fetched
value is bound to a local that shadows the parameter, so the caller sees
its argument unchanged and receives only the store's error; the result is
entirely independent of the value component the store returns. -/
theorem snapshotGet_discards_loaded {α : Type} (storeGet : String → α × Option String)
    (id : String) (a : α) (v : α) :
    snapshotGet storeGet id a = (a, (storeGet id).2) ∧
    snapshotGet (fun i => (v, (storeGet i).2)) id a = snapshotGet storeGet id a :=
  ⟨rfl, rfl⟩

end EventStore
